import Mathlib

/-!
Verification of the esplora blockchain module (wire model, fee estimation,
configuration) against its natural-language specification.

The wire structs and conversion functions are embedded from
src/blockchain/esplora/api.rs; the configuration constructor and the fee-rate
fixture from src/blockchain/esplora/mod.rs.  Machine integers (u32, u64, i32)
are modelled as Nat / Int: none of the embedded operations performs arithmetic
on them, so overflow cannot arise.  Byte strings are lists of Nat, hashes and
transaction ids are opaque Nat identifiers.
-/

set_option autoImplicit false

namespace Esplora

/-- Bytes of a script, as rust-bitcoin Script is an opaque byte vector here. -/
abbrev Script := List Nat

/-- Transaction id, opaque to every embedded operation. -/
abbrev Txid := Nat

/-- Block hash, opaque to every embedded operation. -/
abbrev BlockHash := Nat

/-- Embeds struct PrevOut of api.rs: value and scriptpubkey of the output an
input spends. -/
structure PrevOut where
  value : Nat
  scriptpubkey : Script
  deriving Repr, DecidableEq

/-- Embeds struct Vin of api.rs: a wire transaction input.  The prevout field
is an Option; the source carries only the comment "None if coinbase" next to
it, nothing in the type links it to the is_coinbase flag. -/
structure Vin where
  txid : Txid
  vout : Nat
  prevout : Option PrevOut
  scriptsig : Script
  witness : List (List Nat)
  sequence : Nat
  is_coinbase : Bool
  deriving Repr, DecidableEq

/-- Embeds struct Vout of api.rs: a wire transaction output. -/
structure Vout where
  value : Nat
  scriptpubkey : Script
  deriving Repr, DecidableEq

/-- Embeds struct TxStatus of api.rs: confirmation status of a transaction,
with independently optional height, hash and time fields. -/
structure TxStatus where
  confirmed : Bool
  block_height : Option Nat
  block_hash : Option BlockHash
  block_time : Option Nat
  deriving Repr, DecidableEq

/-- Embeds struct Tx of api.rs: a wire transaction. -/
structure Tx where
  txid : Txid
  version : Int
  locktime : Nat
  vin : List Vin
  vout : List Vout
  status : TxStatus
  fee : Nat
  deriving Repr, DecidableEq

/-- Embeds bitcoin OutPoint: reference to a previous output. -/
structure OutPoint where
  txid : Txid
  vout : Nat
  deriving Repr, DecidableEq

/-- Embeds bitcoin TxIn: a domain transaction input.  Witness is kept as the
list of byte strings (Witness.from_vec keeps the elements in order). -/
structure TxIn where
  previous_output : OutPoint
  script_sig : Script
  sequence : Nat
  witness : List (List Nat)
  deriving Repr, DecidableEq

/-- Embeds bitcoin TxOut: a domain transaction output. -/
structure TxOut where
  value : Nat
  script_pubkey : Script
  deriving Repr, DecidableEq

/-- Embeds bitcoin Transaction: the domain transaction to_tx produces. -/
structure Transaction where
  version : Int
  lock_time : Nat
  input : List TxIn
  output : List TxOut
  deriving Repr, DecidableEq

/-- Embeds crate BlockTime: confirmation block height and timestamp. -/
structure BlockTime where
  timestamp : Nat
  height : Nat
  deriving Repr, DecidableEq

/-- Embeds Tx::to_tx of api.rs: field-by-field conversion of a wire
transaction into a domain Transaction, mapping over inputs and outputs. -/
def Tx.to_tx (t : Tx) : Transaction :=
  { version := t.version
    lock_time := t.locktime
    input := t.vin.map (fun vin =>
      { previous_output := { txid := vin.txid, vout := vin.vout }
        script_sig := vin.scriptsig
        sequence := vin.sequence
        witness := vin.witness })
    output := t.vout.map (fun vout =>
      { value := vout.value
        script_pubkey := vout.scriptpubkey }) }

/-- Embeds Tx::confirmation_time of api.rs: matches on the status, requiring
confirmed = true with block_height and block_time both present; the
block_hash field is matched by the wildcard, exactly as in the source. -/
def Tx.confirmation_time (t : Tx) : Option BlockTime :=
  match t.status with
  | ⟨true, some height, _, some timestamp⟩ => some ⟨timestamp, height⟩
  | _ => none

/-- Embeds Tx::previous_outputs of api.rs: maps each input to its optional
prevout, converted to a TxOut. -/
def Tx.previous_outputs (t : Tx) : List (Option TxOut) :=
  t.vin.map (fun vin =>
    vin.prevout.map (fun po =>
      { script_pubkey := po.scriptpubkey, value := po.value }))

/-- A concrete wire transaction with two inputs, the first with prevout
supplied and the second (a coinbase) without, used to instantiate the
previous_outputs property. -/
def samplePrevOutTx : Tx :=
  { txid := 9, version := 1, locktime := 0,
    vin := [{ txid := 4, vout := 1, prevout := some ⟨50, [0xaa]⟩,
              scriptsig := [], witness := [], sequence := 0,
              is_coinbase := false },
            { txid := 0, vout := 0, prevout := none, scriptsig := [],
              witness := [], sequence := 0, is_coinbase := true }],
    vout := [],
    status := { confirmed := false, block_height := none,
                block_hash := none, block_time := none },
    fee := 0 }

/-- A concrete non-coinbase wire input whose prevout is absent: the service
did not supply the previous output, yet the input is not a coinbase. -/
def nonCoinbaseNoPrevout : Vin :=
  { txid := 5, vout := 0, prevout := none, scriptsig := [], witness := [],
    sequence := 4294967295, is_coinbase := false }

/-- Error raised by the witness deserializer when a hex string cannot be
decoded; stands for the custom serde error built from the hex parse error in
deserialize_witness of api.rs. -/
inductive DeError where
  | MalformedWitnessHex
  deriving Repr, DecidableEq

/-- Value of one hex digit, case insensitive, as in the hex parser of the
bitcoin hashes crate used by Vec::from_hex; none for a non-hex character. -/
def hexDigit (c : Char) : Option Nat :=
  if '0' ≤ c ∧ c ≤ '9' then some (c.toNat - '0'.toNat)
  else if 'a' ≤ c ∧ c ≤ 'f' then some (c.toNat - 'a'.toNat + 10)
  else if 'A' ≤ c ∧ c ≤ 'F' then some (c.toNat - 'A'.toNat + 10)
  else none

/-- Decodes a character list two digits at a time into bytes, failing on an
odd-length list or a non-hex digit, as Vec::from_hex does. -/
def hexDecodeChars : List Char → Option (List Nat)
  | [] => some []
  | [_] => none
  | c1 :: c2 :: rest =>
    match hexDigit c1, hexDigit c2, hexDecodeChars rest with
    | some hi, some lo, some bs => some ((16 * hi + lo) :: bs)
    | _, _, _ => none

/-- Embeds Vec::from_hex applied to a string: decode the characters of the
string into bytes. -/
def from_hex (s : String) : Option (List Nat) :=
  hexDecodeChars s.data

/-- A string is valid hexadecimal when it has even length and every
character is a hex digit: exactly the strings Vec::from_hex accepts. -/
def ValidHex (s : String) : Prop :=
  s.data.length % 2 = 0 ∧ ∀ c ∈ s.data, (hexDigit c).isSome

instance : DecidablePred ValidHex := fun s => by
  unfold ValidHex
  infer_instance

/-- Embeds deserialize_witness of api.rs: decode every element of the list
of hex strings, short-circuiting into the malformed-witness error on the
first element that fails to decode (collect over Result). -/
def deserialize_witness : List String → Except DeError (List (List Nat))
  | [] => .ok []
  | s :: rest =>
    match from_hex s with
    | none => .error DeError.MalformedWitnessHex
    | some bs =>
      match deserialize_witness rest with
      | .error e => .error e
      | .ok ws => .ok (bs :: ws)

/-- Embeds the serde attributes on the witness field of Vin in api.rs,
deserialize_with = deserialize_witness together with default: a JSON object
with no witness field yields the default value, the empty vector, while a
present field is parsed by deserialize_witness. -/
def vin_witness_field : Option (List String) → Except DeError (List (List Nat))
  | none => .ok []
  | some l => deserialize_witness l

/-- Embeds struct EsploraBlockchainConfig of mod.rs: configuration for the
esplora engine. -/
structure EsploraBlockchainConfig where
  base_url : String
  proxy : Option String
  concurrency : Option Nat
  stop_gap : Nat
  timeout : Option Nat
  deriving Repr, DecidableEq

/-- Embeds EsploraBlockchainConfig::new of mod.rs: builds a config with the
given base url and stop gap and default values for the other fields.  The
source performs no validation of any kind and cannot fail. -/
def EsploraBlockchainConfig.new (base_url : String) (stop_gap : Nat) :
    EsploraBlockchainConfig :=
  { base_url := base_url
    proxy := none
    timeout := none
    stop_gap := stop_gap
    concurrency := none }

/-- Error raised by fee estimation when no usable bucket exists. -/
inductive FeeError where
  | NoFeeEstimateAvailable
  deriving Repr, DecidableEq

/-- A fee table: association list from confirmation target (in blocks) to a
fee rate.  The rate type is a parameter because selection operates on the
numeric target keys only, never on the rate magnitude; the concrete fixture
below instantiates it with exact rationals. -/
abbrev FeeTable (α : Type) := List (Nat × α)

/-- The entry with the largest key not exceeding the target, if any; on
equal keys the earlier entry wins, matching List.lookup.  This follows the
max-over-the-filtered-map shape a hash-map implementation must take, since
hash maps cannot be scanned in key order. -/
def bestLE {α : Type} : FeeTable α → Nat → Option (Nat × α)
  | [], _ => none
  | p :: ps, target =>
    if p.1 ≤ target then
      match bestLE ps target with
      | none => some p
      | some q => if q.1 ≤ p.1 then some p else some q
    else bestLE ps target

/-- Modelled from the spec: into_fee_rate, the fee estimation operation,
whose implementation is not among the sources here (only its unit test,
feerate_parsing in mod.rs, is).  It returns the rate stored at the largest
present key not exceeding the target, as the test requires (target 6 returns
the rate at key 6; target 26 inherits the rate of key 25 although larger
keys are present), and fails with NoFeeEstimateAvailable when no key at or
below the target is present. -/
def into_fee_rate {α : Type} (target : Nat) (estimates : FeeTable α) :
    Except FeeError α :=
  match bestLE estimates target with
  | some p => .ok p.2
  | none => .error FeeError.NoFeeEstimateAvailable

/-- Largest key of the table, if the table is nonempty. -/
def maxKey {α : Type} : FeeTable α → Option Nat
  | [] => none
  | p :: ps =>
    match maxKey ps with
    | none => some p.1
    | some m => some (max p.1 m)

/-- First present key among lo, lo+1, ..., lo+fuel-1, scanning upward. -/
def firstKeyFrom {α : Type} (t : FeeTable α) : Nat → Nat → Option Nat
  | _, 0 => none
  | lo, fuel+1 =>
    if (t.lookup lo).isSome then some lo else firstKeyFrom t (lo + 1) fuel

/-- Modelled from the spec: the fee selection algorithm exactly as the
claim states it, for comparison with the code's test: if the table contains
the target, return its rate; otherwise scan candidate targets in strictly
increasing order from target+1 up to the maximum key present and return the
rate of the first present key; if no key at or above the target exists, fail
with NoFeeEstimateAvailable. -/
def feeRateForTargetClaim {α : Type} (target : Nat) (t : FeeTable α) :
    Except FeeError α :=
  match t.lookup target with
  | some r => .ok r
  | none =>
    match maxKey t with
    | none => .error FeeError.NoFeeEstimateAvailable
    | some m =>
      match firstKeyFrom t (target + 1) (m - target) with
      | none => .error FeeError.NoFeeEstimateAvailable
      | some k =>
        match t.lookup k with
        | some r => .ok r
        | none => .error FeeError.NoFeeEstimateAvailable

/-- First present key at or below n, scanning keys in strictly decreasing
order n, n-1, ..., 0. -/
def firstKeyLE {α : Type} (t : FeeTable α) : Nat → Option Nat
  | 0 => if (t.lookup 0).isSome then some 0 else none
  | n+1 => if (t.lookup (n+1)).isSome then some (n+1) else firstKeyLE t n

/-- The fee table of the feerate_parsing test in mod.rs, entries in the
order of the JSON fixture, rates as exact rationals read off the decimal
literals.  The test asserts that target 6 yields the rate at key 6 (2.236
after the f32 cast the code performs) and that target 26 yields the rate at
key 25, namely 1.015, inheriting from the value for 25. -/
def esploraFeeFixture : FeeTable ℚ :=
  [ (25, 1.015), (5, 2.3280000000000003), (12, 2.0109999999999997),
    (15, 1.018), (17, 1.018), (11, 2.0109999999999997), (3, 3.01),
    (2, 4.9830000000000005), (6, 2.2359999999999998), (21, 1.018),
    (13, 1.081), (7, 2.2359999999999998), (8, 2.2359999999999998),
    (16, 1.018), (20, 1.018), (22, 1.017), (23, 1.017), (504, 1),
    (9, 2.2359999999999998), (14, 1.018), (10, 2.0109999999999997),
    (24, 1.017), (1008, 1), (1, 4.9830000000000005), (4, 2.3280000000000003),
    (19, 1.018), (144, 1), (18, 1.018) ]

end Esplora

namespace Esplora

/-- C2: confirmation_time returns a value exactly when the status has
confirmed = true and both block_height and block_time present, and that value
carries exactly that height and timestamp; in every other case it is none,
never a partially filled value. -/
theorem confirmation_time_spec (t : Tx) :
    (∀ bt : BlockTime, t.confirmation_time = some bt ↔
      t.status.confirmed = true ∧ t.status.block_height = some bt.height ∧
        t.status.block_time = some bt.timestamp) ∧
    (t.confirmation_time = none ↔
      ¬ (t.status.confirmed = true ∧ (t.status.block_height).isSome ∧
        (t.status.block_time).isSome)) := by
  obtain ⟨txid, version, locktime, vin, vout, status, fee⟩ := t
  obtain ⟨c, bh, bhash, btime⟩ := status
  cases c <;> cases bh <;> cases btime <;>
    constructor <;>
      first
        | (intro bt; cases bt; simp [Tx.confirmation_time, and_comm])
        | simp [Tx.confirmation_time]

/-- Closed instance of confirmation_time_spec: a concrete confirmed
transaction with height 7 and time 100 yields exactly that block time. -/
theorem confirmation_time_spec_witness :
    ({ txid := 1, version := 2, locktime := 0, vin := [], vout := [],
       status := { confirmed := true, block_height := some 7,
                   block_hash := some 3, block_time := some 100 },
       fee := 0 } : Tx).confirmation_time = some ⟨100, 7⟩ :=
  ((confirmation_time_spec _).1 ⟨100, 7⟩).mpr ⟨rfl, rfl, rfl⟩

/-- C9: confirmation_time ignores the block hash: whenever the status has
confirmed = true with block height and block time both present,
confirmation_time returns exactly that height and timestamp, with no
constraint on the block_hash field (the statement quantifies over
transactions with an arbitrary, possibly absent, block hash). -/
theorem confirmation_time_ignores_block_hash (t : Tx) (h ts : Nat)
    (hc : t.status.confirmed = true)
    (hh : t.status.block_height = some h)
    (ht : t.status.block_time = some ts) :
    t.confirmation_time = some ⟨ts, h⟩ := by
  obtain ⟨txid, version, locktime, vin, vout, status, fee⟩ := t
  obtain ⟨c, bh, bhash, btime⟩ := status
  simp only at hc hh ht
  subst hc hh ht
  rfl

/-- Closed instance of confirmation_time_ignores_block_hash at a transaction
whose block_hash is none: the confirmation time is still returned. -/
theorem confirmation_time_ignores_block_hash_witness :
    ({ txid := 1, version := 2, locktime := 0, vin := [], vout := [],
       status := { confirmed := true, block_height := some 7,
                   block_hash := none, block_time := some 100 },
       fee := 0 } : Tx).confirmation_time = some ⟨100, 7⟩ :=
  confirmation_time_ignores_block_hash _ 7 100 rfl rfl rfl

/-- C5: previous_outputs has exactly one entry per input, in input order;
entry i carries the value and locking script of input i's prevout when that
prevout is supplied, and is absent exactly when input i carries no prevout. -/
theorem previous_outputs_spec (t : Tx) :
    (t.previous_outputs).length = t.vin.length ∧
    ∀ (i : Nat) (vin : Vin), t.vin[i]? = some vin →
      ((t.previous_outputs)[i]? = some none ↔ vin.prevout = none) ∧
      (∀ po : PrevOut, vin.prevout = some po →
        (t.previous_outputs)[i]? =
          some (some { value := po.value, script_pubkey := po.scriptpubkey })) := by
  refine ⟨by simp [Tx.previous_outputs], ?_⟩
  intro i vin hv
  constructor
  · rw [Tx.previous_outputs, List.getElem?_map, hv]
    simp [Option.map_eq_none']
  · intro po hpo
    rw [Tx.previous_outputs, List.getElem?_map, hv]
    simp [hpo]

/-- Closed instance of previous_outputs_spec on a transaction with two
inputs, the first with a prevout and the second without: the first entry is
that prevout's value and script, the second entry is absent. -/
theorem previous_outputs_spec_witness :
    ((samplePrevOutTx).previous_outputs)[0]? =
        some (some { value := 50, script_pubkey := [0xaa] }) ∧
    ((samplePrevOutTx).previous_outputs)[1]? = some none :=
  ⟨((previous_outputs_spec samplePrevOutTx).2 0
      ⟨4, 1, some ⟨50, [0xaa]⟩, [], [], 0, false⟩ rfl).2 ⟨50, [0xaa]⟩ rfl,
   ((previous_outputs_spec samplePrevOutTx).2 1
      ⟨0, 0, none, [], [], 0, true⟩ rfl).1.mpr rfl⟩

/-- C3: to_tx is a lossless field-by-field mapping: same version and
locktime, one domain input per wire input in order with previous output
(txid, vout), unlocking script, sequence and witness copied unchanged, and
one domain output per wire output in order with value and locking script
copied unchanged. -/
theorem to_tx_spec (t : Tx) :
    (t.to_tx).version = t.version ∧
    (t.to_tx).lock_time = t.locktime ∧
    (t.to_tx).input.length = t.vin.length ∧
    (t.to_tx).output.length = t.vout.length ∧
    (∀ (i : Nat) (vin : Vin), t.vin[i]? = some vin →
      (t.to_tx).input[i]? = some
        { previous_output := { txid := vin.txid, vout := vin.vout }
          script_sig := vin.scriptsig
          sequence := vin.sequence
          witness := vin.witness }) ∧
    (∀ (i : Nat) (vout : Vout), t.vout[i]? = some vout →
      (t.to_tx).output[i]? = some
        { value := vout.value, script_pubkey := vout.scriptpubkey }) := by
  refine ⟨rfl, rfl, by simp [Tx.to_tx], by simp [Tx.to_tx], ?_, ?_⟩
  · intro i vin hv
    rw [Tx.to_tx]
    simp only [List.getElem?_map, hv]
    rfl
  · intro i vout hv
    rw [Tx.to_tx]
    simp only [List.getElem?_map, hv]
    rfl

/-- Closed instance of to_tx_spec on a one-input one-output transaction:
every field of the converted transaction equals the corresponding wire
field. -/
theorem to_tx_spec_witness :
    ({ txid := 9, version := 2, locktime := 77,
       vin := [{ txid := 4, vout := 1, prevout := none,
                 scriptsig := [0x51], witness := [[0xde, 0xad]],
                 sequence := 5, is_coinbase := false }],
       vout := [{ value := 600, scriptpubkey := [0x6a] }],
       status := { confirmed := false, block_height := none,
                   block_hash := none, block_time := none },
       fee := 10 } : Tx).to_tx.input[0]? = some
        { previous_output := { txid := 4, vout := 1 }
          script_sig := [0x51]
          sequence := 5
          witness := [[0xde, 0xad]] } :=
  (to_tx_spec _).2.2.2.2.1 0 ⟨4, 1, none, [0x51], [[0xde, 0xad]], 5, false⟩ rfl

/-- C7: a wire transaction with zero inputs is tolerated structurally: to_tx
is total (it is a Lean function) and on such a transaction produces a domain
transaction with an empty input sequence, keeping version, locktime and the
outputs. -/
theorem to_tx_empty_vin (t : Tx) (h : t.vin = []) :
    (t.to_tx).input = [] ∧ (t.to_tx).version = t.version ∧
    (t.to_tx).lock_time = t.locktime ∧
    (t.to_tx).output.length = t.vout.length := by
  refine ⟨?_, rfl, rfl, by simp [Tx.to_tx]⟩
  simp [Tx.to_tx, h]

/-- Closed instance of to_tx_empty_vin at a concrete zero-input wire
transaction. -/
theorem to_tx_empty_vin_witness :
    (({ txid := 3, version := 1, locktime := 0, vin := [], vout := [],
        status := { confirmed := false, block_height := none,
                    block_hash := none, block_time := none },
        fee := 0 } : Tx).to_tx).input = [] :=
  (to_tx_empty_vin _ rfl).1

/-- C6 counterexample: the claimed invariant, prevout absent exactly when
is_coinbase is set, is false of the wire data model: nonCoinbaseNoPrevout
has prevout = none and is_coinbase = false, and nothing in the Vin type or
its conversion enforces the link. -/
theorem vin_prevout_coinbase_counterexample :
    ¬ (∀ v : Vin, v.prevout = none ↔ v.is_coinbase = true) := by
  intro hall
  have h := (hall nonCoinbaseNoPrevout).mp rfl
  simp [nonCoinbaseNoPrevout] at h

/-- C6 amended: the wire data model does not tie prevout to the coinbase
flag: every combination of prevout presence and is_coinbase is representable
by a Vin value (absence for coinbase inputs is a documented protocol
convention, not an invariant enforced by the type). -/
theorem vin_prevout_independent_of_coinbase (b : Bool) (p : Option PrevOut) :
    ∃ v : Vin, v.is_coinbase = b ∧ v.prevout = p :=
  ⟨{ txid := 0, vout := 0, prevout := p, scriptsig := [], witness := [],
     sequence := 0, is_coinbase := b }, rfl, rfl⟩

/-- C8 counterexample: constructing the configuration with stop_gap = 0 does
not fail: new returns an ordinary config value carrying stop_gap 0 (its
return type is the config itself, so no InvalidConfiguration failure exists
in the constructor). -/
theorem config_new_zero_stop_gap_counterexample :
    EsploraBlockchainConfig.new "https://blockstream.info/api/" 0 =
      { base_url := "https://blockstream.info/api/", proxy := none,
        concurrency := none, stop_gap := 0, timeout := none } ∧
    (EsploraBlockchainConfig.new "https://blockstream.info/api/" 0).stop_gap
      = 0 :=
  ⟨rfl, rfl⟩

/-- C8 amended: for every base URL and every stop gap, zero included, the
config constructor succeeds and returns exactly the given base url and stop
gap with proxy, concurrency and timeout defaulted to none; no validation or
failure occurs. -/
theorem config_new_no_validation (u : String) (g : Nat) :
    (EsploraBlockchainConfig.new u g).base_url = u ∧
    (EsploraBlockchainConfig.new u g).stop_gap = g ∧
    (EsploraBlockchainConfig.new u g).proxy = none ∧
    (EsploraBlockchainConfig.new u g).concurrency = none ∧
    (EsploraBlockchainConfig.new u g).timeout = none :=
  ⟨rfl, rfl, rfl, rfl, rfl⟩

end Esplora

namespace Esplora

theorem hexDecodeChars_isSome_iff :
    ∀ cs : List Char, (hexDecodeChars cs).isSome ↔
      cs.length % 2 = 0 ∧ ∀ c ∈ cs, (hexDigit c).isSome
  | [] => by simp [hexDecodeChars]
  | [c] => by simp [hexDecodeChars]
  | c1 :: c2 :: rest => by
    have ih := hexDecodeChars_isSome_iff rest
    rw [hexDecodeChars]
    have hmod : (c1 :: c2 :: rest).length % 2 = rest.length % 2 := by
      simp only [List.length_cons]
      omega
    cases h1 : hexDigit c1 <;> cases h2 : hexDigit c2 <;>
      cases h3 : hexDecodeChars rest <;>
        simp_all [List.forall_mem_cons, hmod]

theorem from_hex_isSome_iff (s : String) : (from_hex s).isSome ↔ ValidHex s := by
  rw [from_hex, ValidHex]
  exact hexDecodeChars_isSome_iff s.data

/-- C4: deserializing a witness stack fails with MalformedWitnessHex exactly
when at least one element string is not valid hexadecimal (even length, hex
digits only); on success the decoded list has one byte string per input hex
string, in order, each the hex decoding of its string, so no element is
dropped. -/
theorem deserialize_witness_spec (l : List String) :
    (deserialize_witness l = .error DeError.MalformedWitnessHex ↔
      ∃ s ∈ l, ¬ ValidHex s) ∧
    (∀ ws : List (List Nat), deserialize_witness l = .ok ws →
      ws.length = l.length ∧
      ∀ (i : Nat) (s : String), l[i]? = some s →
        ∃ bs, ws[i]? = some bs ∧ from_hex s = some bs) := by
  induction l with
  | nil =>
    constructor
    · simp [deserialize_witness]
    · intro ws hws
      simp only [deserialize_witness] at hws
      cases hws
      simp
  | cons s rest ih =>
    rw [deserialize_witness]
    cases hfs : from_hex s with
    | none =>
      have hnv : ¬ ValidHex s := by
        rw [← from_hex_isSome_iff, hfs]
        simp
      constructor
      · exact ⟨fun _ => ⟨s, List.mem_cons_self s rest, hnv⟩, fun _ => rfl⟩
      · intro ws hws
        cases hws
    | some bs =>
      cases hdw : deserialize_witness rest with
      | error e =>
        cases e
        constructor
        · constructor
          · intro _
            obtain ⟨x, hx, hnv⟩ := ih.1.mp hdw
            exact ⟨x, List.mem_cons_of_mem s hx, hnv⟩
          · intro _
            rfl
        · intro ws hws
          cases hws
      | ok ws' =>
        have hv : ValidHex s := by
          rw [← from_hex_isSome_iff, hfs]
          rfl
        constructor
        · constructor
          · intro h
            cases h
          · rintro ⟨x, hx, hnv⟩
            rcases List.mem_cons.mp hx with hxs | hxr
            · exact absurd hv (hxs ▸ hnv)
            · rw [ih.1.mpr ⟨x, hxr, hnv⟩] at hdw
              cases hdw
        · intro ws hws
          cases hws
          obtain ⟨hlen, hidx⟩ := ih.2 ws' hdw
          refine ⟨by simp [hlen], ?_⟩
          intro i t ht
          cases i with
          | zero =>
            simp only [List.getElem?_cons_zero] at ht ⊢
            cases ht
            exact ⟨bs, rfl, hfs⟩
          | succ j =>
            simp only [List.getElem?_cons_succ] at ht ⊢
            exact hidx j t ht

/-- Closed instance of deserialize_witness_spec: a stack whose second
element contains the non-hex character z fails with MalformedWitnessHex. -/
theorem deserialize_witness_spec_witness :
    deserialize_witness ["00ff", "zz"] = .error DeError.MalformedWitnessHex :=
  (deserialize_witness_spec ["00ff", "zz"]).1.mpr
    ⟨"zz", by decide, by decide⟩

/-- C10: a wire input whose witness field is entirely missing from the JSON
object deserializes to the serde default for the field, the empty witness
stack, rather than failing: vin_witness_field embeds the deserialize_with
plus default attribute pair on the witness field of Vin. -/
theorem vin_witness_field_default :
    vin_witness_field none = .ok ([] : List (List Nat)) :=
  rfl

end Esplora

namespace Esplora

theorem lookup_cons_self {α : Type} (pk : Nat) (pv : α) (ps : FeeTable α) :
    ((pk, pv) :: ps).lookup pk = some pv := by
  rw [List.lookup, beq_self_eq_true]

theorem lookup_cons_ne {α : Type} (pk j : Nat) (pv : α) (ps : FeeTable α)
    (h : j ≠ pk) : ((pk, pv) :: ps).lookup j = ps.lookup j := by
  rw [List.lookup, beq_eq_false_iff_ne.mpr h]

theorem bestLE_eq_none {α : Type} (t : FeeTable α) (target : Nat)
    (h : bestLE t target = none) : ∀ j, j ≤ target → t.lookup j = none := by
  induction t with
  | nil => intro j _; rfl
  | cons p ps ih =>
    obtain ⟨pk, pv⟩ := p
    intro j hj
    rw [bestLE] at h
    by_cases hp : pk ≤ target
    · rw [if_pos hp] at h
      cases hps : bestLE ps target with
      | none => rw [hps] at h; cases h
      | some q =>
        rw [hps] at h
        dsimp only at h
        by_cases hq : q.1 ≤ pk
        · rw [if_pos hq] at h; cases h
        · rw [if_neg hq] at h; cases h
    · rw [if_neg hp] at h
      have hne : j ≠ pk := by omega
      rw [lookup_cons_ne pk j pv ps hne]
      exact ih h j hj

theorem bestLE_eq_some {α : Type} (t : FeeTable α) (target : Nat) :
    ∀ (k : Nat) (r : α), bestLE t target = some (k, r) →
      t.lookup k = some r ∧ k ≤ target ∧
        ∀ j, j ≤ target → (t.lookup j).isSome → j ≤ k := by
  induction t with
  | nil => intro k r h; cases h
  | cons p ps ih =>
    obtain ⟨pk, pv⟩ := p
    intro k r h
    rw [bestLE] at h
    by_cases hp : pk ≤ target
    · rw [if_pos hp] at h
      cases hps : bestLE ps target with
      | none =>
        rw [hps] at h
        simp only [Option.some_inj, Prod.mk.injEq] at h
        obtain ⟨hk, hr⟩ := h
        subst hk
        subst hr
        refine ⟨lookup_cons_self pk pv ps, hp, ?_⟩
        intro j hj hsome
        by_cases hjk : j = pk
        · omega
        · rw [lookup_cons_ne pk j pv ps hjk, bestLE_eq_none ps target hps j hj]
            at hsome
          cases hsome
      | some q =>
        obtain ⟨qk, qv⟩ := q
        rw [hps] at h
        dsimp only at h
        obtain ⟨hql, hqle, hqmax⟩ := ih qk qv hps
        by_cases hq : qk ≤ pk
        · rw [if_pos hq] at h
          simp only [Option.some_inj, Prod.mk.injEq] at h
          obtain ⟨hk, hr⟩ := h
          subst hk
          subst hr
          refine ⟨lookup_cons_self pk pv ps, hp, ?_⟩
          intro j hj hsome
          by_cases hjk : j = pk
          · omega
          · rw [lookup_cons_ne pk j pv ps hjk] at hsome
            have := hqmax j hj hsome
            omega
        · rw [if_neg hq] at h
          simp only [Option.some_inj, Prod.mk.injEq] at h
          obtain ⟨hk, hr⟩ := h
          subst hk
          subst hr
          have hne : qk ≠ pk := by omega
          refine ⟨by rw [lookup_cons_ne pk qk pv ps hne]; exact hql, hqle, ?_⟩
          intro j hj hsome
          by_cases hjk : j = pk
          · omega
          · rw [lookup_cons_ne pk j pv ps hjk] at hsome
            exact hqmax j hj hsome
    · rw [if_neg hp] at h
      obtain ⟨hl, hle, hmax⟩ := ih k r h
      have hne : k ≠ pk := by omega
      refine ⟨by rw [lookup_cons_ne pk k pv ps hne]; exact hl, hle, ?_⟩
      intro j hj hsome
      have hjp : j ≠ pk := by omega
      rw [lookup_cons_ne pk j pv ps hjp] at hsome
      exact hmax j hj hsome

theorem firstKeyLE_eq_some {α : Type} (t : FeeTable α) :
    ∀ n k : Nat, firstKeyLE t n = some k →
      (t.lookup k).isSome ∧ k ≤ n ∧
        ∀ j, j ≤ n → (t.lookup j).isSome → j ≤ k := by
  intro n
  induction n with
  | zero =>
    intro k h
    rw [firstKeyLE] at h
    by_cases h0 : (t.lookup 0).isSome
    · rw [if_pos h0] at h
      injection h with h'
      subst h'
      exact ⟨h0, Nat.le_refl 0, fun j hj _ => hj⟩
    · rw [if_neg h0] at h
      cases h
  | succ m ih =>
    intro k h
    rw [firstKeyLE] at h
    by_cases hs : (t.lookup (m + 1)).isSome
    · rw [if_pos hs] at h
      injection h with h'
      subst h'
      exact ⟨hs, Nat.le_refl _, fun j hj _ => hj⟩
    · rw [if_neg hs] at h
      obtain ⟨h1, h2, h3⟩ := ih k h
      refine ⟨h1, Nat.le_succ_of_le h2, ?_⟩
      intro j hj hsome
      by_cases hj1 : j = m + 1
      · rw [hj1] at hsome
        exact absurd hsome hs
      · exact h3 j (by omega) hsome

theorem firstKeyLE_eq_none {α : Type} (t : FeeTable α) :
    ∀ n : Nat, firstKeyLE t n = none → ∀ j, j ≤ n → t.lookup j = none := by
  intro n
  induction n with
  | zero =>
    intro h j hj
    rw [firstKeyLE] at h
    by_cases h0 : (t.lookup 0).isSome
    · rw [if_pos h0] at h; cases h
    · rw [if_neg h0] at h
      have : j = 0 := Nat.le_zero.mp hj
      rw [this]
      exact Option.not_isSome_iff_eq_none.mp h0
  | succ m ih =>
    intro h j hj
    rw [firstKeyLE] at h
    by_cases hs : (t.lookup (m + 1)).isSome
    · rw [if_pos hs] at h; cases h
    · rw [if_neg hs] at h
      by_cases hj1 : j = m + 1
      · rw [hj1]
        exact Option.not_isSome_iff_eq_none.mp hs
      · exact ih h j (by omega)

/-- C1 (amended): for every fee table and every positive target: if the
table contains the target as a key, into_fee_rate returns exactly the rate
stored at that key; if the target is absent, the result is the rate of the
first present key found by scanning candidate targets in strictly
decreasing order starting at target-1; and if no key at or below the target
exists, the operation fails with NoFeeEstimateAvailable. -/
theorem into_fee_rate_spec {α : Type} (t : FeeTable α) (target : Nat)
    (hpos : 0 < target) :
    (∀ r : α, t.lookup target = some r → into_fee_rate target t = .ok r) ∧
    (t.lookup target = none →
      (∀ (k : Nat) (r : α), firstKeyLE t (target - 1) = some k →
        t.lookup k = some r → into_fee_rate target t = .ok r) ∧
      (firstKeyLE t (target - 1) = none →
        into_fee_rate target t = .error FeeError.NoFeeEstimateAvailable)) := by
  constructor
  · intro r hr
    rw [into_fee_rate]
    cases hb : bestLE t target with
    | none =>
      rw [bestLE_eq_none t target hb target (Nat.le_refl target)] at hr
      cases hr
    | some p =>
      obtain ⟨k, r'⟩ := p
      obtain ⟨hl, hle, hmax⟩ := bestLE_eq_some t target k r' hb
      have hks : (t.lookup target).isSome := by rw [hr]; rfl
      have : target ≤ k := hmax target (Nat.le_refl target) hks
      have hkt : k = target := Nat.le_antisymm hle this
      rw [hkt, hr] at hl
      injection hl with h'
      rw [h']
  · intro hnone
    constructor
    · intro k r hfk hlk
      obtain ⟨hks, hkle, hkmax⟩ := firstKeyLE_eq_some t (target - 1) k hfk
      rw [into_fee_rate]
      cases hb : bestLE t target with
      | none =>
        have := bestLE_eq_none t target hb k (by omega)
        rw [this] at hlk
        cases hlk
      | some p =>
        obtain ⟨k', r'⟩ := p
        obtain ⟨hl', hle', hmax'⟩ := bestLE_eq_some t target k' r' hb
        have hk'ne : k' ≠ target := by
          intro he
          rw [he, hnone] at hl'
          cases hl'
        have hk'le : k' ≤ target - 1 := by omega
        have h1 : k' ≤ k := hkmax k' hk'le (by rw [hl']; rfl)
        have h2 : k ≤ k' := hmax' k (by omega) hks
        have : k' = k := Nat.le_antisymm h1 h2
        rw [this, hlk] at hl'
        injection hl' with h'
        rw [h']
    · intro hfk
      rw [into_fee_rate]
      cases hb : bestLE t target with
      | none => rfl
      | some p =>
        obtain ⟨k', r'⟩ := p
        obtain ⟨hl', hle', hmax'⟩ := bestLE_eq_some t target k' r' hb
        have hk'ne : k' ≠ target := by
          intro he
          rw [he, hnone] at hl'
          cases hl'
        have : k' ≤ target - 1 := by omega
        rw [firstKeyLE_eq_none t (target - 1) hfk k' this] at hl'
        cases hl'

/-- Closed instance of into_fee_rate_spec at the fixture of the
feerate_parsing test and target 26: the target is absent, the first present
key scanning down from 25 is 25 itself, so the result is the rate 1.015
stored at key 25, exactly as the test asserts. -/
theorem into_fee_rate_spec_witness :
    into_fee_rate 26 esploraFeeFixture = .ok (1.015 : ℚ) :=
  ((into_fee_rate_spec esploraFeeFixture 26 (by decide)).2 rfl).1 25 1.015
    rfl rfl

/-- C1 counterexample: the claimed upward-scanning algorithm contradicts
the repository's own feerate_parsing test.  On the test fixture at target
26 (absent from the table), scanning upward from 27 finds key 144 first and
returns its rate 1, but the test asserts the result 1.015, the rate stored
at key 25, inherited from the value for 25; the two rates differ. -/
theorem feeRateForTargetClaim_counterexample :
    esploraFeeFixture.lookup 26 = none ∧
    feeRateForTargetClaim 26 esploraFeeFixture = .ok (1 : ℚ) ∧
    into_fee_rate 26 esploraFeeFixture = .ok (1.015 : ℚ) ∧
    (1 : ℚ) ≠ (1.015 : ℚ) :=
  ⟨rfl, rfl, rfl, by norm_num⟩

/-- The modelled into_fee_rate reproduces both assertions of the
feerate_parsing test of mod.rs: target 6 yields the rate stored at key 6
(equal to the asserted 2.236 after the f32 cast the code performs on the
f64 table value 2.2359999999999998), and target 26 yields the rate stored
at key 25. -/
theorem into_fee_rate_matches_feerate_parsing :
    into_fee_rate 6 esploraFeeFixture = .ok (2.2359999999999998 : ℚ) ∧
    into_fee_rate 26 esploraFeeFixture = .ok (1.015 : ℚ) :=
  ⟨rfl, rfl⟩

end Esplora
